import Mathlib

set_option maxRecDepth 8000

/-!
Verification of the Model 3D (.m3d) Blender exporter encoder
(`io_export_m3d.py`, function `write_m3d` and its helpers).

The Python source is shallowly embedded below.  Conventions:

* Python floats are modelled as exact rationals (`ℚ`); `round(x, d)` is
  modelled as round-half-to-even at `d` decimal digits (`pyround`), and
  `int(x)` on a nonnegative value as `Int.floor`.
* The `uniquedict` / `dict2list` pair (hash-interning with insertion
  order, then conversion to a list) is modelled as `Pool`: an
  insertion-ordered list with structural-equality interning.  Hash
  collisions of `hash(str(e))` are idealised away.
* `struct.pack` of an unsigned little-endian integer is `packLE`,
  returning `none` when the value is out of range (where `pack` raises).
* Blender scene-graph access (objects, depsgraph, node trees, image
  loading) is the out-of-scope extraction collaborator; its results are
  parameters of the embedded functions.
-/

/-- Python `round` to an integer: round half to even (banker's rounding),
exact-rational model of CPython `round(float)`. -/
def pyroundInt (x : ℚ) : ℤ :=
  if x - ⌊x⌋ < 1/2 then ⌊x⌋
  else if x - ⌊x⌋ > 1/2 then ⌊x⌋ + 1
  else if ⌊x⌋ % 2 = 0 then ⌊x⌋ else ⌊x⌋ + 1

/-- Python `round(x, digits)` for a nonnegative digit count. -/
def pyround (x : ℚ) (digits : ℕ) : ℚ :=
  (pyroundInt (x * 10 ^ digits) : ℚ) / 10 ^ digits

/-- Index of the first occurrence of `e`, if any (structural equality). -/
def poolFind {α : Type} [DecidableEq α] : List α → α → Option ℕ
  | [], _ => none
  | a :: t, e => if a = e then some 0 else (poolFind t e).map Nat.succ

/-- Insertion-ordered interning table: the model of the source's
`uniquedict` dictionaries (`cmap`, `strs`, `verts`, `tmaps`, `skins`,
`inlined`).  `dict2list` (lines 163-167) rebuilds exactly the insertion
order, which `entries` stores directly. -/
structure Pool (α : Type) where
  entries : List α
deriving DecidableEq

/-- Model of `uniquedict` (lines 154-161): return the index of an equal
entry if present, else append at the next sequential index. -/
def Pool.intern {α : Type} [DecidableEq α] (p : Pool α) (e : α) : ℕ × Pool α :=
  match poolFind p.entries e with
  | some i => (i, p)
  | none => (p.entries.length, ⟨p.entries ++ [e]⟩)

/-- Pooled vertex `[x, y, z, w, color, skinid]` (source line 787). -/
structure Vert where
  x : ℚ
  y : ℚ
  z : ℚ
  w : ℚ
  col : ℤ
  skin : ℤ
deriving DecidableEq

/-- Model of `vert` (lines 199-208): eliminate minus zero.  In exact
rationals `-0 = 0`, so each branch is the identity; the `if` mirrors the
source's `if x == -0.0: x = 0.0` (which in Python also fires on `0.0`). -/
def vert (x y z w : ℚ) (col skin : ℤ) : Vert :=
  ⟨if x = 0 then 0 else x, if y = 0 then 0 else y,
   if z = 0 then 0 else z, if w = 0 then 0 else w, col, skin⟩

/-- Model of `idxsize` (lines 169-177): format code for a table size.
`0, 1, 2` select 1-, 2-, 4-byte indices; `3` is the "unused" marker. -/
def idxsize (cnt : ℕ) : ℕ :=
  if cnt = 0 then 3
  else if cnt < 254 then 0
  else if cnt < 65534 then 1
  else 2

/-- Little-endian unsigned encoding of `n` on `w` bytes; `none` when the
value is out of range, where `struct.pack` raises. -/
def packLE (w : ℕ) (n : ℤ) : Option (List ℕ) :=
  if 0 ≤ n ∧ n < (256 : ℤ) ^ w then
    some ((List.range w).map (fun k => n.toNat / 256 ^ k % 256))
  else none

/-- Model of `addidx` (lines 179-196): write an index at the selected
width, mapping negative sentinels into the top of the unsigned range;
format `3` (unused table) writes nothing. -/
def addidx (fmt : ℕ) (idx : ℤ) : Option (List ℕ) :=
  match fmt with
  | 0 => packLE 1 (if idx < 0 then 256 + idx else idx)
  | 1 => packLE 2 (if idx < 0 then 65536 + idx else idx)
  | 2 => packLE 4 (if idx < 0 then 4294967296 + idx else idx)
  | _ => some []

/-- Number of bytes a given index format occupies, read off from the
encoding of the `-1` sentinel (defined for every format). -/
def fmtBytes (fmt : ℕ) : ℕ := ((addidx fmt (-1)).getD []).length

/-- Model of lines 318-324: significant decimal digits from the quality
tier.  Faithful to the source's `if` / `if`-`else` sequence: the tier-3
branch assigns 15, but the following `if use_quality == 2 ... else ...`
then assigns 7 or 4 unconditionally, overwriting it (`_d15` is the dead
store). -/
def digitsFor (use_quality : ℤ) : ℕ :=
  let _d15 : ℕ := if use_quality = 3 then 15 else 0
  if use_quality = 2 then 7 else 4

/-- Model of lines 290-291: `if use_animation: use_skeleton = True`. -/
def forceSkeleton (use_animation use_skeleton : Bool) : Bool :=
  if use_animation then true else use_skeleton

/-! ## Grid compression (lines 816-843) -/

/-- Axis-aligned bounds accumulator (`min_x` .. `max_z`). -/
structure Bounds where
  min_x : ℚ
  max_x : ℚ
  min_y : ℚ
  max_y : ℚ
  min_z : ℚ
  max_z : ℚ

/-- One iteration of the bounds loop (lines 820-832); note it visits
every pooled vertex, orientation quaternions included. -/
def boundsStep (b : Bounds) (v : Vert) : Bounds :=
  ⟨if v.x < b.min_x then v.x else b.min_x,
   if v.x > b.max_x then v.x else b.max_x,
   if v.y < b.min_y then v.y else b.min_y,
   if v.y > b.max_y then v.y else b.max_y,
   if v.z < b.min_z then v.z else b.min_z,
   if v.z > b.max_z then v.z else b.max_z⟩

/-- Bounds of the whole vertex pool, initialised to `±1e10`
(lines 818-819). -/
def gridBounds (verts : List Vert) : Bounds :=
  verts.foldl boundsStep
    ⟨10000000000, -10000000000, 10000000000, -10000000000, 10000000000, -10000000000⟩

/-- Line 833: `s = max(abs(min_x), abs(max_x), ..., abs(max_z))`. -/
def gridScale (verts : List Vert) : ℚ :=
  let b := gridBounds verts
  max |b.min_x| (max |b.max_x| (max |b.min_y| (max |b.max_y| (max |b.min_z| |b.max_z|))))

/-- Modelled from the spec (section 4.3): the scale the specification
prescribes, ranging over position-kind vertices only
(`skinRef != -2`).  Kept for comparison with `gridScale`, which the
source computes over the whole pool. -/
def gridScalePosOnly (verts : List Vert) : ℚ :=
  gridScale (verts.filter (fun v => v.skin ≠ -2))

/-- Lines 835-839: rescale one vertex; only position-kind entries
(`skinRef != -2`) are divided and re-rounded. -/
def rescaleVert (s : ℚ) (digits : ℕ) (v : Vert) : Vert :=
  if v.skin ≠ -2 then
    { v with x := pyround (v.x / s) digits,
             y := pyround (v.y / s) digits,
             z := pyround (v.z / s) digits }
  else v

/-- Model of lines 816-843: grid compression plus the final scale
defaulting.  Returns the vertex table after the in-place rescale and
the value of `use_scale` after lines 840-843. -/
def gridCompress (gc : Bool) (digits : ℕ) (use_scale : ℚ) (verts : List Vert) :
    List Vert × ℚ :=
  if gc then
    let s := gridScale verts
    let verts1 := if s ≠ 1 ∧ s ≠ 0 then verts.map (rescaleVert s digits) else verts
    let sc := if use_scale ≤ 0 then s else use_scale
    (verts1, if sc ≤ 0 then 1 else sc)
  else (verts, if use_scale ≤ 0 then 1 else use_scale)

/-! ## Table mutation after conversion (claim C4) -/

/-- The seven pooled tables in their final ordered-list form, as they
stand right after the `dict2list` conversions (lines 775-781). -/
structure Tables where
  cmap : List (List ℚ)
  strs : List String
  verts : List Vert
  tmaps : List (ℚ × ℚ)
  bones : List (ℤ × ℕ × ℕ × ℕ)
  skins : List (List (ℤ × ℤ))
  inlined : List (ℕ × List ℕ)
deriving DecidableEq

/-- Sequential clamp of one UV component in the textual writer
(lines 891-898): `if t[i] > 1: t[i] = 1` then `if t[i] < 0: t[i] = 0`. -/
def asciiClampCoord (x : ℚ) : ℚ :=
  let x1 := if 1 < x then 1 else x
  if x1 < 0 then 0 else x1

/-- In-place effect of the textual writer's Textmap loop on one pooled
UV entry (lines 885-899): out-of-range entries are clamped in place when
unnormalized UVs are disallowed; the binary writer (line 1037) instead
rebinds a fresh list and leaves the table untouched. -/
def asciiTmapEntry (allow : Bool) (t : ℚ × ℚ) : ℚ × ℚ :=
  if (t.1 < 0 ∨ 1 < t.1 ∨ t.2 < 0 ∨ 1 < t.2) ∧ allow = false then
    (asciiClampCoord t.1, asciiClampCoord t.2)
  else t

/-- Contents of the seven pooled tables after all post-conversion steps
(grid compression, lines 816-843, and the textual or binary writer,
lines 853-1190) have run.  Every write into a table element performed by
the source after `dict2list` is accounted for: the grid-compression
rescale assigns `verts[i][0..2]` (lines 837-839) and the textual writer
assigns `t[0]`, `t[1]` inside `tmaps` (lines 891-898); every other
access to `cmap`, `strs`, `verts`, `tmaps`, `bones`, `skins`, `inlined`
in both writers is a read. -/
def tablesAfterEmission (ascii gc allow : Bool) (digits : ℕ) (use_scale : ℚ)
    (t : Tables) : Tables :=
  { t with
    verts := (gridCompress gc digits use_scale t.verts).1,
    tmaps := if ascii then t.tmaps.map (asciiTmapEntry allow) else t.tmaps }

/-! ## Material property encoder (lines 568-652) -/

/-- A value stored in a material's property dict: a color-table index, a
string-table index, a float, or a byte. -/
inductive PropVal where
  | cix : ℕ → PropVal
  | six : ℕ → PropVal
  | flt : ℚ → PropVal
  | byte : ℕ → PropVal
deriving DecidableEq

/-- A material's property dict `props`, in insertion order. -/
abbrev Props := List (ℕ × PropVal)

/-- Python-dict assignment `props[k] = v`: replace in place if the key
exists, else append. -/
def dictSet : Props → ℕ → PropVal → Props
  | [], k, v => [(k, v)]
  | p :: t, k, v => if p.1 = k then (k, v) :: t else p :: dictSet t k v

/-- The resolved PrincipledBSDF wrapper values the encoder reads
(extraction collaborator): scalar and color properties plus the image
name, if any, behind each texture slot (`none` when the slot or its
image is absent; the empty string models an image with empty name). -/
structure MatWrap where
  base_color : List ℚ
  metallic : ℚ
  specular : ℚ
  specular_tint : List ℚ
  transmission : ℚ
  normalmap_strength : ℚ
  alpha : ℚ
  roughness : ℚ
  ior : ℚ
  base_color_texture : Option String
  transmission_texture : Option String
  normalmap_texture : Option String
  alpha_texture : Option String
  roughness_texture : Option String
  metallic_texture : Option String
  ior_texture : Option String

/-- Lines 591-597: the derived diffuse alpha `d`. -/
def diffAlpha (mw : MatWrap) : ℚ :=
  if mw.alpha ≠ 0 ∧ mw.alpha ≠ 1 then mw.alpha
  else if 3 < mw.base_color.length then mw.base_color.getD 3 0
  else 0

/-- Lines 602-614: the derived illumination-model byte `il`. -/
def illum (specular metallic d : ℚ) : ℕ :=
  if specular = 0 then 1
  else if metallic ≠ 0 then (if d ≠ 1 then 6 else 3)
  else if d ≠ 1 then 9 else 2

/-- Generic branch for a `gscale` property key (lines 637-638): emitted
only when nonzero, as a replicated color. -/
def gscaleStep (key : ℕ) (val : ℚ) (props : Props) (cm : Pool (List ℚ)) :
    Props × Pool (List ℚ) :=
  if val ≠ 0 then
    let r := cm.intern [val, val, val, 1]
    (dictSet props key (PropVal.cix r.1), r.2)
  else (props, cm)

/-- Generic branch for a `color` property key (lines 639-642): emitted
whenever the value has 3 or 4 components, with no default check. -/
def colorStep (key : ℕ) (val : List ℚ) (props : Props) (cm : Pool (List ℚ)) :
    Props × Pool (List ℚ) :=
  if val.length = 3 then
    let r := cm.intern [val.getD 0 0, val.getD 1 0, val.getD 2 0, 1]
    (dictSet props key (PropVal.cix r.1), r.2)
  else if val.length = 4 then
    let r := cm.intern val
    (dictSet props key (PropVal.cix r.1), r.2)
  else (props, cm)

/-- Generic branch for a `float` property key (lines 643-644): emitted
only when nonzero. -/
def floatStep (key : ℕ) (val : ℚ) (props : Props) : Props :=
  if val ≠ 0 then dictSet props key (PropVal.flt val) else props

/-- Branch for a `map` (texture) property key (lines 627-636): skipped
when the slot or its image name is absent; otherwise the name is
interned, the property records the string index, and with inlining on a
payload longer than 8 bytes is interned into `inlined`.  `gd` is the
texture payload provider (`get_texturedata`). -/
def mapStep (ui : Bool) (gd : String → List ℕ) (key : ℕ) (tex : Option String)
    (props : Props) (ss : Pool String) (inl : Pool (ℕ × List ℕ)) :
    Props × Pool String × Pool (ℕ × List ℕ) :=
  match tex with
  | none => (props, ss, inl)
  | some nm =>
    if nm = "" then (props, ss, inl)
    else
      let data := gd nm
      let r := ss.intern nm
      let props1 := dictSet props key (PropVal.six r.1)
      let inl1 := if ui ∧ 8 < data.length then (inl.intern (r.1, data)).2 else inl
      (props1, r.2, inl1)

/-- Property keys 0-8 of the `mat_property_map` loop (lines 589-616 and
the generic branches they fall through to), in dict order.  Keys 4 and
the later `//`-disabled keys are skipped by line 617; key 8's generic
lookup of a (nonexistent) `illumination` attribute hits the
`val is None: continue` path, so only its special branch acts. -/
def pmStage1 (mw : MatWrap) (cm0 : Pool (List ℚ)) : Props × Pool (List ℚ) :=
  let d := diffAlpha mw
  let s0 : Props × Pool (List ℚ) :=
    if d ≠ 0 then
      let r := cm0.intern
        [mw.base_color.getD 0 0, mw.base_color.getD 1 0, mw.base_color.getD 2 0, d]
      (dictSet [] 0 (PropVal.cix r.1), r.2)
    else ([], cm0)
  let s1 := colorStep 0 mw.base_color s0.1 s0.2
  let s2 := gscaleStep 1 mw.metallic s1.1 s1.2
  let s3 := gscaleStep 2 mw.specular s2.1 s2.2
  let s4 := colorStep 3 mw.specular_tint s3.1 s3.2
  let s5 := gscaleStep 5 mw.transmission s4.1 s4.2
  let p6 := floatStep 6 mw.normalmap_strength s5.1
  let p7 := floatStep 7 mw.alpha p6
  let il := illum mw.specular mw.metallic d
  (if il ≠ 0 then dictSet p7 8 (PropVal.byte il) else p7, s5.2)

/-- Property keys 64-195 of the loop: the P-series floats and the map
(texture) keys, in dict order (130 is `//`-disabled). -/
def pmStage2 (ui : Bool) (gd : String → List ℕ) (mw : MatWrap)
    (props : Props) (cm : Pool (List ℚ)) (ss : Pool String)
    (inl : Pool (ℕ × List ℕ)) :
    Props × Pool (List ℚ) × Pool String × Pool (ℕ × List ℕ) :=
  let p1 := floatStep 64 mw.roughness props
  let p2 := floatStep 65 mw.metallic p1
  let p3 := floatStep 67 mw.ior p2
  let m1 := mapStep ui gd 128 mw.base_color_texture p3 ss inl
  let m2 := mapStep ui gd 133 mw.transmission_texture m1.1 m1.2.1 m1.2.2
  let m3 := mapStep ui gd 134 mw.normalmap_texture m2.1 m2.2.1 m2.2.2
  let m4 := mapStep ui gd 135 mw.alpha_texture m3.1 m3.2.1 m3.2.2
  let m5 := mapStep ui gd 192 mw.roughness_texture m4.1 m4.2.1 m4.2.2
  let m6 := mapStep ui gd 193 mw.metallic_texture m5.1 m5.2.1 m5.2.2
  let m7 := mapStep ui gd 195 mw.ior_texture m6.1 m6.2.1 m6.2.2
  (m7.1, cm, m7.2.1, m7.2.2)

/-- The whole property-emission pass for one material (lines 587-646;
the node-tree diffuse-texture fallback scan of lines 574-585 is
extraction glue and is modelled as absent). -/
def processMaterial (ui : Bool) (gd : String → List ℕ) (mw : MatWrap)
    (cm : Pool (List ℚ)) (ss : Pool String) (inl : Pool (ℕ × List ℕ)) :
    Props × Pool (List ℚ) × Pool String × Pool (ℕ × List ℕ) :=
  let s := pmStage1 mw cm
  pmStage2 ui gd mw s.1 s.2 ss inl

/-- Lines 650-652: the material record is appended only if it has at
least one property; `none` models the dropped material. -/
def emitMaterial (ui : Bool) (gd : String → List ℕ) (mw : MatWrap)
    (cm : Pool (List ℚ)) (ss : Pool String) (inl : Pool (ℕ × List ℕ)) :
    Option Props :=
  let r := processMaterial ui gd mw cm ss inl
  if r.1 = [] then none else some r.1

/-! ## Skin-weight normalization (lines 507-544) -/

/-- State of the per-vertex weight loop: the skin list built so far, the
running byte sum `w`, the largest pre-clamp rounded weight `wm`, and the
index `si` where it was first attained (`none` models the Python
variable being still unbound). -/
structure SkinSt where
  skin : List (ℤ × ℤ)
  w : ℤ
  wm : ℤ
  si : Option ℕ
deriving DecidableEq

/-- One iteration of the weight loop (lines 514-525): rescale to bytes
with banker's rounding, remember the largest pre-clamp value's first
index, clamp to `[1, 255]`, append and accumulate. -/
def skinFoldStep (wf : ℚ) (st : SkinSt) (g : ℤ × ℚ) : SkinSt :=
  let s0 : ℤ := pyroundInt (g.2 / wf * 255)
  let top : ℤ × Option ℕ :=
    if st.wm < s0 then (s0, some st.skin.length) else (st.wm, st.si)
  let s1 : ℤ := if s0 < 1 then 1 else if 255 < s0 then 255 else s0
  ⟨st.skin ++ [(g.1, s1)], st.w + s1, top.1, top.2⟩

/-- `skin[si][1] += d` (line 535): add `d` to the weight at index `i`. -/
def addShortfall : List (ℤ × ℤ) → ℕ → ℤ → List (ℤ × ℤ)
  | [], _, _ => []
  | p :: t, 0, d => (p.1, p.2 + d) :: t
  | p :: t, Nat.succ i, d => p :: addShortfall t i d

/-- Model of lines 508-538 for one vertex: `none` when the raw weights
do not sum to a positive value (the vertex stays unskinned, `s = -1`);
otherwise the built skin list, with the `255 - w` shortfall added at
`si` when the sum missed 255 and `si` was ever assigned (the source
wraps that line in `try/except` against an unbound `si`). -/
def buildSkin (groups : List (ℤ × ℚ)) : Option (List (ℤ × ℤ)) :=
  let wf := (groups.map Prod.snd).sum
  if 0 < wf then
    let fin := groups.foldl (skinFoldStep wf) ⟨[], 0, 0, none⟩
    if fin.w ≠ 255 then
      match fin.si with
      | some i => some (addShortfall fin.skin i (255 - fin.w))
      | none => some fin.skin
    else some fin.skin
  else none

/-! ## Animation delta encoder (lines 704-756) -/

/-- A sampled bone transform after matrix normalisation and
decomposition: translation `(x, y, z)` and quaternion `(x, y, z, w)`. -/
abbrev Sample := (ℚ × ℚ × ℚ) × (ℚ × ℚ × ℚ × ℚ)

/-- A bind-pose bone as the animation loop sees it: sanitized name, its
sequential index (`bones[name][0]`), and the pooled vertex indices of
its bind position and orientation (`b[1][2]`, `b[1][3]`). -/
structure ABone where
  name : String
  idx : ℕ
  pos : ℕ
  ori : ℕ

/-- The `lastpose` dict: bone name to last recorded (position,
orientation) pooled indices. -/
abbrev LastPose := List (String × ℕ × ℕ)

/-- Dict read `lastpose[n]`. -/
def lpFind : LastPose → String → Option (ℕ × ℕ)
  | [], _ => none
  | (n, pr) :: t, nm => if n = nm then some pr else lpFind t nm

/-- Dict write `lastpose[n] = v`. -/
def lpUpdate : LastPose → String → ℕ × ℕ → LastPose
  | [], _, _ => []
  | (n, pr) :: t, nm, v => if n = nm then (n, v) :: t else (n, pr) :: lpUpdate t nm v

/-- A delta entry `[boneIndex, pos vertexid, ori vertexid]`. -/
abbrev Delta := ℕ × ℕ × ℕ

/-- Lines 717-745, one bone at one sampled frame: intern the rounded
position and orientation into the vertex pool and append a delta exactly
when either pooled index differs from the last recorded pose, updating
it.  `smp` yields the sampled transform (extraction collaborator); the
`lpFind` miss arm is unreachable because the loop runs over the same
bone list that populated `lastpose`. -/
def poseStep (digits : ℕ) (smp : String → Sample)
    (st : Pool Vert × LastPose × List Delta) (b : ABone) :
    Pool Vert × LastPose × List Delta :=
  let p := (smp b.name).1
  let q := (smp b.name).2
  let r1 := st.1.intern
    (vert (pyround p.1 digits) (pyround p.2.1 digits) (pyround p.2.2 digits) 1 0 (-1))
  let r2 := r1.2.intern
    (vert (pyround q.1 digits) (pyround q.2.1 digits) (pyround q.2.2.1 digits)
      (pyround q.2.2.2 digits) 0 (-2))
  match lpFind st.2.1 b.name with
  | none => (r2.2, st.2.1, st.2.2)
  | some lpp =>
    if lpp.1 ≠ r1.1 ∨ lpp.2 ≠ r2.1 then
      (r2.2, lpUpdate st.2.1 b.name (r1.1, r2.1), st.2.2 ++ [(b.idx, r1.1, r2.1)])
    else (r2.2, st.2.1, st.2.2)

/-- The per-action loop state: vertex pool, `lastpose`, the recorded
`frames` (timestamp, deltas), the running action start `a[2]` and the
last recorded sample index `lf`. -/
structure AnimSt where
  pool : Pool Vert
  lp : LastPose
  frames : List (ℤ × List Delta)
  a2 : ℤ
  lf : ℤ

/-- Lines 711-753, one sampled frame: walk all bones, and if any
changed, record the frame — retargeting the action start `a[2]` to this
frame when it is the first recorded one — with timestamp
`int((frame - a[2]) * mpf)`. -/
def frameVisit (digits : ℕ) (mpf : ℚ) (bones : List ABone)
    (smp : ℤ → String → Sample) (st : AnimSt) (frame : ℤ) : AnimSt :=
  let r := bones.foldl (poseStep digits (smp frame)) (st.pool, st.lp, [])
  if r.2.2 = [] then { st with pool := r.1, lp := r.2.1 }
  else
    let a2 := if st.frames = [] then frame else st.a2
    ⟨r.1, r.2.1, st.frames ++ [(⌊((frame - a2 : ℤ) : ℚ) * mpf⌋, r.2.2)], a2, frame⟩

/-- `range(a[2], a[3] + 1)` as a list of frames. -/
def frameRange (st en : ℤ) : List ℤ :=
  (List.range (en + 1 - st).toNat).map (fun k => st + k)

/-- Model of lines 704-756 for one action: fold the frame loop from the
bind `lastpose` and return the grown vertex pool plus — when at least
one frame was recorded — the duration `int((lf - a[2] + 1) * mpf)` and
the frame list; `none` models the dropped empty action.  (Interning of
the action name into `strs` and the `fi_m` statistic are omitted.) -/
def processAction (digits fps : ℕ) (bones : List ABone)
    (smp : ℤ → String → Sample) (st en : ℤ) (pool : Pool Vert) :
    Pool Vert × Option (ℤ × List (ℤ × List Delta)) :=
  let mpf : ℚ := 1000 / (fps : ℚ)
  let fin := (frameRange st en).foldl (frameVisit digits mpf bones smp)
    ⟨pool, bones.map (fun b => (b.name, b.pos, b.ori)), [], st, 0⟩
  (fin.pool,
   if fin.frames = [] then none
   else some (⌊((fin.lf - fin.a2 + 1 : ℤ) : ℚ) * mpf⌋, fin.frames))

/-- Timestamps relative to an origin sample index `f0`:
`int((sampleIndex - f0) * mpf)` for each recorded frame. -/
def stamp (mpf : ℚ) (f0 : ℤ) (rec : List (ℤ × List Delta)) : List (ℤ × List Delta) :=
  rec.map (fun p => (⌊((p.1 - f0 : ℤ) : ℚ) * mpf⌋, p.2))

/-- Modelled from the spec (section 4.6): one frame of the
characterisation — keep the frame, keyed by its original sample index,
exactly when its delta list is nonempty.  Shares `poseStep` with the
source translation. -/
def recVisit (digits : ℕ) (bones : List ABone) (smp : ℤ → String → Sample)
    (st : Pool Vert × LastPose × List (ℤ × List Delta)) (frame : ℤ) :
    Pool Vert × LastPose × List (ℤ × List Delta) :=
  let r := bones.foldl (poseStep digits (smp frame)) (st.1, st.2.1, [])
  if r.2.2 = [] then (r.1, r.2.1, st.2.2) else (r.1, r.2.1, st.2.2 ++ [(frame, r.2.2)])

/-- Modelled from the spec (section 4.6): the recorded delta frames of
an action, keyed by original sample index, before timestamping. -/
def recordedDeltaFrames (digits : ℕ) (bones : List ABone)
    (smp : ℤ → String → Sample) (st en : ℤ) (pool : Pool Vert) :
    Pool Vert × LastPose × List (ℤ × List Delta) :=
  (frameRange st en).foldl (recVisit digits bones smp)
    (pool, bones.map (fun b => (b.name, b.pos, b.ori)), [])

/-- Last element of a list, with a fallback for the empty list. -/
def lastRec {α : Type} : List α → α → α
  | [], d => d
  | a :: t, _ => lastRec t a

/-- Reassembly of the code-side fold state from the recorded frames: no
recorded frame leaves `frames` empty and `a[2]`, `lf` at their initial
values; otherwise `a[2]` is the first recorded sample index, the frames
are its relative timestamps, and `lf` the last recorded sample index. -/
def assembleFrames (mpf : ℚ) (a20 lf0 : ℤ) (rec : List (ℤ × List Delta)) :
    List (ℤ × List Delta) × ℤ × ℤ :=
  match rec with
  | [] => ([], a20, lf0)
  | (f0, d0) :: rest =>
    (stamp mpf f0 ((f0, d0) :: rest), f0, (lastRec rest (f0, d0)).1)

/-! ## Binary container framing (lines 1182-1190) -/

/-- The bytes of the magic `3DMO`. -/
def magic3DMO : List ℕ := [51, 68, 77, 79]

/-- The bytes of the end tag `OMD3`. -/
def tagOMD3 : List ℕ := [79, 77, 68, 51]

/-- Little-endian decode, inverse of `packLE`. -/
def decodeLE (bs : List ℕ) : ℕ := bs.foldr (fun b acc => b + 256 * acc) 0

/-- Model of lines 1182-1190: append the `OMD3` terminator (no length
field), optionally compress the whole chunk buffer (`compress` models
`zlib.compress`), and prepend the `3DMO` magic and the 4-byte
little-endian total length `len(buf) + 8`. -/
def finalFile (compress : List ℕ → List ℕ) (strm : Bool) (chunks : List ℕ) :
    Option (List ℕ) :=
  let buf := if strm then compress (chunks ++ tagOMD3) else chunks ++ tagOMD3
  (packLE 4 ((buf.length : ℤ) + 8)).map (fun lenb => magic3DMO ++ lenb ++ buf)

/-! ## Concrete inputs used by counterexamples and witnesses -/

/-- A pooled vertex table holding one position at `(1/2, 0, 0)` and one
orientation quaternion `(1, 0, 0, 0)` (a half-turn about X). -/
def cexGridVerts : List Vert :=
  [⟨1/2, 0, 0, 1, 0, -1⟩, ⟨1, 0, 0, 0, 0, -2⟩]

/-- Post-conversion tables with a single out-of-range UV entry. -/
def cexTables : Tables :=
  { cmap := [], strs := [], verts := [], tmaps := [(2, 0)],
    bones := [], skins := [], inlined := [] }

/-- A material whose specular is 0 and whose every other property is
zero or absent. -/
def zeroMat : MatWrap :=
  { base_color := [], metallic := 0, specular := 0, specular_tint := [],
    transmission := 0, normalmap_strength := 0, alpha := 0, roughness := 0,
    ior := 0, base_color_texture := none, transmission_texture := none,
    normalmap_texture := none, alpha_texture := none, roughness_texture := none,
    metallic_texture := none, ior_texture := none }

/-! ## Helper lemmas -/

theorem gridScale_nonneg (verts : List Vert) : 0 ≤ gridScale verts := by
  unfold gridScale
  exact le_max_of_le_left (abs_nonneg _)

theorem packLE_eq (w : ℕ) (n : ℤ) (h0 : 0 ≤ n) (h1 : n < (256 : ℤ) ^ w) :
    packLE w n = some ((List.range w).map (fun k => n.toNat / 256 ^ k % 256)) := by
  simp only [packLE]
  rw [if_pos ⟨h0, h1⟩]

theorem addidx_zero (idx : ℤ) :
    addidx 0 idx = packLE 1 (if idx < 0 then 256 + idx else idx) := rfl

theorem addidx_one (idx : ℤ) :
    addidx 1 idx = packLE 2 (if idx < 0 then 65536 + idx else idx) := rfl

theorem addidx_two (idx : ℤ) :
    addidx 2 idx = packLE 4 (if idx < 0 then 4294967296 + idx else idx) := rfl

theorem packLE4_length (n : ℤ) (bs : List ℕ) (h : packLE 4 n = some bs) :
    bs.length = 4 := by
  simp only [packLE] at h
  split at h
  · cases h
    simp
  · cases h

theorem decodeLE_packLE4 (n : ℤ) (bs : List ℕ) (h : packLE 4 n = some bs) :
    (decodeLE bs : ℤ) = n := by
  simp only [packLE] at h
  split at h
  case isFalse => cases h
  case isTrue hc =>
    cases h
    have h4 : List.range 4 = [0, 1, 2, 3] := rfl
    have ht : ((n.toNat : ℤ)) = n := Int.toNat_of_nonneg hc.1
    have hlt : n.toNat < 4294967296 := by
      have := hc.2
      norm_num at this
      omega
    rw [h4]
    simp only [List.map, decodeLE, List.foldr]
    norm_num
    omega

/-! ## Claim theorems -/

/-- C1 (code evaluation at the failing input): the significant-digit
count the code actually computes per quality tier is 4, 4, 7, 4 — tier 3
gets 4 digits, not the 15 the tier table states, because the `digits =
15` assignment is overwritten by the unconditional `if`/`else` that
follows it. -/
theorem digitsFor_by_tier :
    digitsFor 0 = 4 ∧ digitsFor 1 = 4 ∧ digitsFor 2 = 7 ∧ digitsFor 3 = 4 := by
  refine ⟨rfl, rfl, rfl, rfl⟩

/-- C10: requesting animation export forces skeleton export on
regardless of the caller's `use_skeleton` argument, and with animation
off the caller's choice is kept. -/
theorem animation_forces_skeleton :
    (∀ use_sk : Bool, forceSkeleton true use_sk = true) ∧
    (∀ use_sk : Bool, forceSkeleton false use_sk = use_sk) :=
  ⟨fun _ => rfl, fun _ => rfl⟩

/-- C5: the index width selector gives 1 byte for `0 < count < 254`,
2 bytes for `254 ≤ count < 65534`, 4 bytes for larger counts, and the
reserved "unused" format exactly when the count is 0; in particular for
counts 0, 1, 253, 254, 65533, 65534 it yields reserved, 1, 1, 2, 2, 4
bytes. -/
theorem idxsize_claim (cnt : ℕ) :
    (0 < cnt → cnt < 254 → fmtBytes (idxsize cnt) = 1) ∧
    (254 ≤ cnt → cnt < 65534 → fmtBytes (idxsize cnt) = 2) ∧
    (65534 ≤ cnt → fmtBytes (idxsize cnt) = 4) ∧
    (idxsize cnt = 3 ↔ cnt = 0) ∧
    (idxsize 0 = 3 ∧ fmtBytes (idxsize 1) = 1 ∧ fmtBytes (idxsize 253) = 1 ∧
     fmtBytes (idxsize 254) = 2 ∧ fmtBytes (idxsize 65533) = 2 ∧
     fmtBytes (idxsize 65534) = 4) := by
  refine ⟨?_, ?_, ?_, ?_, ?_⟩
  · intro h1 h2
    have hi : idxsize cnt = 0 := by
      simp only [idxsize]
      rw [if_neg (by omega), if_pos h2]
    rw [hi]; decide
  · intro h1 h2
    have hi : idxsize cnt = 1 := by
      simp only [idxsize]
      rw [if_neg (by omega), if_neg (by omega), if_pos h2]
    rw [hi]; decide
  · intro h1
    have hi : idxsize cnt = 2 := by
      simp only [idxsize]
      rw [if_neg (by omega), if_neg (by omega), if_neg (by omega)]
    rw [hi]; decide
  · constructor
    · intro h
      by_contra h0
      simp only [idxsize, if_neg h0] at h
      split at h
      · omega
      · split at h <;> omega
    · intro h; simp [idxsize, h]
  · refine ⟨rfl, ?_, ?_, ?_, ?_, ?_⟩ <;> decide

theorem idxsize_claim_witness :
    fmtBytes (idxsize 1) = 1 ∧ fmtBytes (idxsize 254) = 2 ∧
    fmtBytes (idxsize 65534) = 4 :=
  ⟨(idxsize_claim 1).1 (by decide) (by decide),
   (idxsize_claim 254).2.1 (by decide) (by decide),
   (idxsize_claim 65534).2.2.1 (by decide)⟩

/-- C6: at every selected width, the index `-1` is written as the
width's maximum unsigned value and `-2` as one less, and every
non-negative in-range index is written as its little-endian unsigned
value at that width. -/
theorem addidx_claim (i : ℕ) :
    (addidx 0 (-1) = some [255] ∧ addidx 0 (-2) = some [254] ∧
     addidx 1 (-1) = some [255, 255] ∧ addidx 1 (-2) = some [254, 255] ∧
     addidx 2 (-1) = some [255, 255, 255, 255] ∧
     addidx 2 (-2) = some [254, 255, 255, 255]) ∧
    (i < 256 → addidx 0 (i : ℤ) = some [i]) ∧
    (i < 65536 → addidx 1 (i : ℤ) = some [i % 256, i / 256]) ∧
    (i < 4294967296 → addidx 2 (i : ℤ) =
      some [i % 256, i / 256 % 256, i / 65536 % 256, i / 16777216]) := by
  refine ⟨by refine ⟨?_, ?_, ?_, ?_, ?_, ?_⟩ <;> decide, ?_, ?_, ?_⟩
  · intro h
    rw [addidx_zero, if_neg (by omega : ¬((i : ℤ) < 0)),
      packLE_eq 1 _ (by omega) (by norm_num; omega)]
    have hr : List.range 1 = [0] := rfl
    rw [hr]
    simp only [List.map, Int.toNat_natCast, pow_zero, Nat.div_one]
    rw [Nat.mod_eq_of_lt h]
  · intro h
    rw [addidx_one, if_neg (by omega : ¬((i : ℤ) < 0)),
      packLE_eq 2 _ (by omega) (by norm_num; omega)]
    have hr : List.range 2 = [0, 1] := rfl
    rw [hr]
    simp only [List.map, Int.toNat_natCast, pow_zero, pow_one, Nat.div_one]
    have h2 : i / 256 % 256 = i / 256 := Nat.mod_eq_of_lt (by omega)
    rw [h2]
  · intro h
    rw [addidx_two, if_neg (by omega : ¬((i : ℤ) < 0)),
      packLE_eq 4 _ (by omega) (by norm_num; omega)]
    have hr : List.range 4 = [0, 1, 2, 3] := rfl
    rw [hr]
    simp only [List.map, Int.toNat_natCast, pow_zero, pow_one, Nat.div_one]
    have e2 : (256 : ℕ) ^ 2 = 65536 := by norm_num
    have e3 : (256 : ℕ) ^ 3 = 16777216 := by norm_num
    rw [e2, e3]
    have h4 : i / 16777216 % 256 = i / 16777216 := Nat.mod_eq_of_lt (by omega)
    rw [h4]

theorem addidx_claim_witness :
    addidx 1 ((300 : ℕ) : ℤ) = some [300 % 256, 300 / 256] :=
  (addidx_claim 300).2.2.1 (by decide)

/-- C9: the written binary file is the 4-byte magic `3DMO`, a 4-byte
little-endian length field whose decoded value equals the file's total
byte count, then the (possibly compressed) chunk buffer, whose
uncompressed form ends with the bare 4-byte `OMD3` tag. -/
theorem binary_container (compress : List ℕ → List ℕ) (strm : Bool)
    (chunks f : List ℕ) (h : finalFile compress strm chunks = some f) :
    f.take 4 = magic3DMO ∧
    decodeLE ((f.drop 4).take 4) = f.length ∧
    f.drop 8 = (if strm then compress (chunks ++ tagOMD3) else chunks ++ tagOMD3) ∧
    tagOMD3 <:+ chunks ++ tagOMD3 := by
  simp only [finalFile] at h
  rcases hp : packLE 4
      (((if strm = true then compress (chunks ++ tagOMD3)
         else chunks ++ tagOMD3).length : ℤ) + 8) with _ | lenb
  · rw [hp] at h
    cases h
  · rw [hp] at h
    simp only [Option.map_some'] at h
    have hlen4 : lenb.length = 4 := packLE4_length _ _ hp
    rw [Option.some_inj] at h
    subst h
    refine ⟨?_, ?_, ?_, List.suffix_append _ _⟩
    · rw [List.append_assoc]
      rw [show (4 : ℕ) = magic3DMO.length from rfl, List.take_left]
    · rw [List.append_assoc]
      rw [show (magic3DMO ++ (lenb ++ (if strm = true then
            compress (chunks ++ tagOMD3) else chunks ++ tagOMD3))).drop 4 =
          lenb ++ (if strm = true then compress (chunks ++ tagOMD3)
            else chunks ++ tagOMD3) from by
        rw [show (4 : ℕ) = magic3DMO.length from rfl, List.drop_left]]
      rw [show (lenb ++ (if strm = true then compress (chunks ++ tagOMD3)
            else chunks ++ tagOMD3)).take 4 = lenb from by
        rw [← hlen4, List.take_left]]
      have hd := decodeLE_packLE4 _ _ hp
      have hfl : (magic3DMO ++ (lenb ++ (if strm = true then
          compress (chunks ++ tagOMD3) else chunks ++ tagOMD3))).length =
          (if strm = true then compress (chunks ++ tagOMD3)
            else chunks ++ tagOMD3).length + 8 := by
        simp only [List.length_append, magic3DMO, List.length_cons,
          List.length_nil, hlen4]
        omega
      rw [hfl]
      exact_mod_cast hd
    · rw [show (8 : ℕ) = (magic3DMO ++ lenb).length from by simp [magic3DMO, hlen4]]
      rw [List.drop_left]

theorem binary_container_witness :
    ([51, 68, 77, 79, 12, 0, 0, 0, 79, 77, 68, 51] : List ℕ).take 4 = magic3DMO :=
  (binary_container id false [] [51, 68, 77, 79, 12, 0, 0, 0, 79, 77, 68, 51]
    (by decide)).1

/-- C2 counterexample: with grid compression on and no explicit scale,
the declared scale (and the rescale decision) comes from the extent of
the whole pool, quaternions included, not from the position-kind
vertices only.  On a pool holding the position `(1/2, 0, 0)` and the
quaternion `(1, 0, 0, 0)`, the code computes `s = 1` (so it neither
rescales nor shrinks the declared scale), while the scale over
position-kind vertices alone is `1/2`. -/
theorem grid_scale_counterexample :
    (gridCompress true 4 0 cexGridVerts).2 ≠ gridScalePosOnly cexGridVerts ∧
    (gridCompress true 4 0 cexGridVerts).1 = cexGridVerts := by
  have hs : gridScale cexGridVerts = 1 := by
    norm_num [gridScale, gridBounds, boundsStep, cexGridVerts, List.foldl,
      abs_eq_max_neg, max_def]
  have hp : gridScalePosOnly cexGridVerts = 1/2 := by
    norm_num [gridScalePosOnly, gridScale, gridBounds, boundsStep, cexGridVerts,
      List.foldl, List.filter, abs_eq_max_neg, max_def]
  have hc : gridCompress true 4 0 cexGridVerts = (cexGridVerts, 1) := by
    simp only [gridCompress, hs, if_true]
    norm_num
  rw [hc, hp]
  norm_num

/-- C2 (amended): with grid compression on, the scale `s` is the
maximal absolute bound of the whole pooled vertex table (quaternions
included);
when `s` is neither 0 nor 1 every position-kind vertex is divided by
`s` and re-rounded while `skinRef = -2` quaternions are never touched;
and when no positive output scale was requested the declared scale is
this `s` (defaulting to 1 when `s = 0`). -/
theorem grid_compress_amended (digits : ℕ) (u : ℚ) (verts : List Vert) :
    ((gridCompress true digits u verts).1 =
      if gridScale verts ≠ 1 ∧ gridScale verts ≠ 0 then
        verts.map (rescaleVert (gridScale verts) digits)
      else verts) ∧
    (∀ s : ℚ, ∀ v ∈ verts, v.skin = -2 → rescaleVert s digits v = v) ∧
    ((gridCompress true digits u verts).2 =
      if u ≤ 0 then (if gridScale verts = 0 then 1 else gridScale verts)
      else u) := by
  refine ⟨by simp [gridCompress], ?_, ?_⟩
  · intro s v _ hv
    simp [rescaleVert, hv]
  · simp only [gridCompress, if_true]
    by_cases hu : u ≤ 0
    · simp only [if_pos hu]
      by_cases h0 : gridScale verts = 0
      · rw [if_pos (le_of_eq h0), if_pos h0]
      · rw [if_neg (fun hle => h0 (le_antisymm hle (gridScale_nonneg verts))),
          if_neg h0]
    · simp only [if_neg hu]

theorem grid_compress_amended_witness :
    rescaleVert (gridScale cexGridVerts) 4 ⟨1, 0, 0, 0, 0, -2⟩ =
      ⟨1, 0, 0, 0, 0, -2⟩ :=
  (grid_compress_amended 4 0 cexGridVerts).2.1 (gridScale cexGridVerts)
    ⟨1, 0, 0, 0, 0, -2⟩ (by simp [cexGridVerts]) rfl

/-- C4 counterexample: the textual writer mutates the pooled UV table
after conversion — an out-of-range UV entry is clamped in place, so the
table's contents after the writer runs differ from its contents right
after conversion. -/
theorem tables_mutation_counterexample :
    (tablesAfterEmission true false false 4 1 cexTables).tmaps ≠
      cexTables.tmaps := by
  norm_num [tablesAfterEmission, cexTables, asciiTmapEntry, asciiClampCoord,
    gridCompress]

/-- C4 (amended): after conversion, exactly two steps modify pooled
table entries — grid compression rewrites the vertex table and the
textual writer clamps the UV table (when unnormalized UVs are
disallowed).  The colors, strings, bones, skins and inlined tables are
never mutated; the binary writer leaves the UV table unchanged; with
grid compression off the vertex table is unchanged; and with
unnormalized UVs allowed the UV table is unchanged on both paths. -/
theorem tables_preserved_amended (ascii gc allow : Bool) (digits : ℕ)
    (u : ℚ) (t : Tables) :
    (tablesAfterEmission ascii gc allow digits u t).cmap = t.cmap ∧
    (tablesAfterEmission ascii gc allow digits u t).strs = t.strs ∧
    (tablesAfterEmission ascii gc allow digits u t).bones = t.bones ∧
    (tablesAfterEmission ascii gc allow digits u t).skins = t.skins ∧
    (tablesAfterEmission ascii gc allow digits u t).inlined = t.inlined ∧
    (tablesAfterEmission ascii gc allow digits u t).verts =
      (gridCompress gc digits u t.verts).1 ∧
    (gc = false → (tablesAfterEmission ascii gc allow digits u t).verts = t.verts) ∧
    (ascii = false → (tablesAfterEmission ascii gc allow digits u t).tmaps = t.tmaps) ∧
    (ascii = true → (tablesAfterEmission ascii gc allow digits u t).tmaps =
      t.tmaps.map (asciiTmapEntry allow)) ∧
    (allow = true → (tablesAfterEmission ascii gc allow digits u t).tmaps = t.tmaps) := by
  refine ⟨rfl, rfl, rfl, rfl, rfl, rfl, ?_, ?_, ?_, ?_⟩
  · intro h
    subst h
    simp [tablesAfterEmission, gridCompress]
  · intro h
    subst h
    simp [tablesAfterEmission]
  · intro h
    subst h
    simp [tablesAfterEmission]
  · intro h
    subst h
    cases ascii
    · simp [tablesAfterEmission]
    · have hid : ∀ p ∈ t.tmaps, asciiTmapEntry true p = id p := fun p _ => by
        simp [asciiTmapEntry]
      simp only [tablesAfterEmission, if_true]
      rw [List.map_congr_left hid, List.map_id]

theorem tables_preserved_witness :
    (tablesAfterEmission false false false 4 1 cexTables).verts =
      cexTables.verts ∧
    (tablesAfterEmission false false false 4 1 cexTables).tmaps =
      cexTables.tmaps :=
  ⟨(tables_preserved_amended false false false 4 1 cexTables).2.2.2.2.2.2.1 rfl,
   (tables_preserved_amended false false false 4 1 cexTables).2.2.2.2.2.2.2.1 rfl⟩

theorem mem_dictSet_self (l : Props) (k : ℕ) (v : PropVal) :
    (k, v) ∈ dictSet l k v := by
  induction l with
  | nil => simp [dictSet]
  | cons p t ih =>
    by_cases h : p.1 = k
    · simp [dictSet, h]
    · simp only [dictSet, if_neg h]
      exact List.mem_cons_of_mem _ ih

theorem mem_dictSet_of_ne (l : Props) (k k0 : ℕ) (v v0 : PropVal)
    (hne : k0 ≠ k) (h : (k0, v0) ∈ l) : (k0, v0) ∈ dictSet l k v := by
  induction l with
  | nil => cases h
  | cons p t ih =>
    rcases List.mem_cons.mp h with h1 | h1
    · rw [← h1]
      simp only [dictSet]
      rw [if_neg (by simpa [← h1] using hne)]
      exact List.mem_cons_self _ _
    · by_cases h2 : p.1 = k
      · simp only [dictSet, if_pos h2]
        exact List.mem_cons_of_mem _ h1
      · simp only [dictSet, if_neg h2]
        exact List.mem_cons_of_mem _ (ih h1)

theorem floatStep_mem (key : ℕ) (val : ℚ) (props : Props) (k0 : ℕ)
    (v0 : PropVal) (hne : k0 ≠ key) (h : (k0, v0) ∈ props) :
    (k0, v0) ∈ floatStep key val props := by
  unfold floatStep
  split
  · exact mem_dictSet_of_ne _ _ _ _ _ hne h
  · exact h

theorem mapStep_mem (ui : Bool) (gd : String → List ℕ) (key : ℕ)
    (tex : Option String) (props : Props) (ss : Pool String)
    (inl : Pool (ℕ × List ℕ)) (k0 : ℕ) (v0 : PropVal)
    (hne : k0 ≠ key) (h : (k0, v0) ∈ props) :
    (k0, v0) ∈ (mapStep ui gd key tex props ss inl).1 := by
  cases tex with
  | none => exact h
  | some nm =>
    by_cases hnm : nm = ""
    · simp only [mapStep, if_pos hnm]
      exact h
    · simp only [mapStep, if_neg hnm]
      exact mem_dictSet_of_ne _ _ _ _ _ hne h

theorem illum_ne_zero (s m d : ℚ) : illum s m d ≠ 0 := by
  unfold illum
  split_ifs <;> decide

theorem pmStage1_illum (mw : MatWrap) (cm : Pool (List ℚ)) :
    (8, PropVal.byte (illum mw.specular mw.metallic (diffAlpha mw))) ∈
      (pmStage1 mw cm).1 := by
  simp only [pmStage1]
  rw [if_pos (illum_ne_zero _ _ _)]
  exact mem_dictSet_self _ _ _

theorem pmStage2_mem8 (ui : Bool) (gd : String → List ℕ) (mw : MatWrap)
    (props : Props) (cm : Pool (List ℚ)) (ss : Pool String)
    (inl : Pool (ℕ × List ℕ)) (v0 : PropVal) (h : ((8 : ℕ), v0) ∈ props) :
    ((8 : ℕ), v0) ∈ (pmStage2 ui gd mw props cm ss inl).1 := by
  simp only [pmStage2]
  apply mapStep_mem _ _ _ _ _ _ _ _ _ (by decide)
  apply mapStep_mem _ _ _ _ _ _ _ _ _ (by decide)
  apply mapStep_mem _ _ _ _ _ _ _ _ _ (by decide)
  apply mapStep_mem _ _ _ _ _ _ _ _ _ (by decide)
  apply mapStep_mem _ _ _ _ _ _ _ _ _ (by decide)
  apply mapStep_mem _ _ _ _ _ _ _ _ _ (by decide)
  apply mapStep_mem _ _ _ _ _ _ _ _ _ (by decide)
  apply floatStep_mem _ _ _ _ _ (by decide)
  apply floatStep_mem _ _ _ _ _ (by decide)
  apply floatStep_mem _ _ _ _ _ (by decide)
  exact h

/-- C3 counterexample: a material with specular 0 and every other
property zero/absent does NOT emit zero properties and is NOT dropped:
the illumination derivation makes the pass emit exactly the property
`8 ↦ 1`, so the material record is written. -/
theorem material_drop_counterexample :
    (processMaterial false (fun _ => []) zeroMat ⟨[]⟩ ⟨[]⟩ ⟨[]⟩).1 =
      [(8, PropVal.byte 1)] ∧
    emitMaterial false (fun _ => []) zeroMat ⟨[]⟩ ⟨[]⟩ ⟨[]⟩ =
      some [(8, PropVal.byte 1)] := by
  have h1 : (processMaterial false (fun _ => []) zeroMat ⟨[]⟩ ⟨[]⟩ ⟨[]⟩).1 =
      [(8, PropVal.byte 1)] := by
    norm_num [processMaterial, pmStage1, pmStage2, zeroMat, diffAlpha, illum,
      colorStep, gscaleStep, floatStep, mapStep, dictSet]
  exact ⟨h1, by simp [emitMaterial, h1]⟩

/-- C3 (amended): the property-emission pass always emits the derived
illumination byte (code 8) — in particular a material with specular 0
and all other properties zero/absent emits exactly that one property,
with value 1 since illumination is derived as 1 when specular is absent
— so no material is ever dropped; a material record would be omitted
only if its property dict were empty, which the illumination byte
prevents. -/
theorem material_illum_amended (ui : Bool) (gd : String → List ℕ)
    (mw : MatWrap) (cm : Pool (List ℚ)) (ss : Pool String)
    (inl : Pool (ℕ × List ℕ)) :
    (8, PropVal.byte (illum mw.specular mw.metallic (diffAlpha mw))) ∈
      (processMaterial ui gd mw cm ss inl).1 ∧
    (mw.specular = 0 → illum mw.specular mw.metallic (diffAlpha mw) = 1) ∧
    emitMaterial ui gd mw cm ss inl ≠ none := by
  have hm : (8, PropVal.byte (illum mw.specular mw.metallic (diffAlpha mw))) ∈
      (processMaterial ui gd mw cm ss inl).1 := by
    simp only [processMaterial]
    exact pmStage2_mem8 _ _ _ _ _ _ _ _ (pmStage1_illum mw cm)
  refine ⟨hm, ?_, ?_⟩
  · intro h
    simp [illum, h]
  · simp only [emitMaterial]
    by_cases he : (processMaterial ui gd mw cm ss inl).1 = []
    · rw [he] at hm
      exact absurd hm (List.not_mem_nil _)
    · rw [if_neg he]
      exact Option.some_ne_none _

theorem material_illum_amended_witness :
    illum zeroMat.specular zeroMat.metallic (diffAlpha zeroMat) = 1 ∧
    emitMaterial false (fun _ => []) zeroMat ⟨[]⟩ ⟨[]⟩ ⟨[]⟩ ≠ none :=
  ⟨(material_illum_amended false (fun _ => []) zeroMat ⟨[]⟩ ⟨[]⟩ ⟨[]⟩).2.1 rfl,
   (material_illum_amended false (fun _ => []) zeroMat ⟨[]⟩ ⟨[]⟩ ⟨[]⟩).2.2⟩

theorem addShortfall_length (l : List (ℤ × ℤ)) (i : ℕ) (d : ℤ) :
    (addShortfall l i d).length = l.length := by
  induction l generalizing i with
  | nil => rfl
  | cons p t ih =>
    cases i with
    | zero => simp [addShortfall]
    | succ j => simp [addShortfall, ih]

theorem addShortfall_sum (l : List (ℤ × ℤ)) (i : ℕ) (d : ℤ)
    (h : i < l.length) :
    ((addShortfall l i d).map Prod.snd).sum = (l.map Prod.snd).sum + d := by
  induction l generalizing i with
  | nil => simp at h
  | cons p t ih =>
    cases i with
    | zero =>
      simp [addShortfall]
      ring
    | succ j =>
      simp only [addShortfall, List.map_cons, List.sum_cons]
      rw [ih j (by simpa using h)]
      ring

theorem skinFold_inv (wf : ℚ) (groups : List (ℤ × ℚ)) :
    ∀ st : SkinSt,
      st.w = (st.skin.map Prod.snd).sum →
      (∀ i, st.si = some i → i < st.skin.length) →
      0 ≤ st.wm →
      (st.si = none → st.wm = 0) →
      (let fin := groups.foldl (skinFoldStep wf) st
       fin.w = (fin.skin.map Prod.snd).sum ∧
       (∀ i, fin.si = some i → i < fin.skin.length) ∧
       fin.skin.length = st.skin.length + groups.length ∧
       (fin.si = none →
         st.si = none ∧ ∀ g ∈ groups, pyroundInt (g.2 / wf * 255) ≤ 0)) := by
  induction groups with
  | nil =>
    intro st hw hsi hwm hnone
    exact ⟨hw, hsi, by simp, fun h => ⟨h, by simp⟩⟩
  | cons g gs ih =>
    intro st hw hsi hwm hnone
    simp only [List.foldl_cons]
    have hstep := ih (skinFoldStep wf st g) ?_ ?_ ?_ ?_
    · refine ⟨hstep.1, hstep.2.1, ?_, ?_⟩
      · rw [hstep.2.2.1]
        simp [skinFoldStep]
        omega
      · intro hfin
        have h2 := hstep.2.2.2 hfin
        have hstepsi : (skinFoldStep wf st g).si = none := h2.1
        simp only [skinFoldStep] at hstepsi
        by_cases hc : st.wm < pyroundInt (g.2 / wf * 255)
        · rw [if_pos hc] at hstepsi
          cases hstepsi
        · rw [if_neg hc] at hstepsi
          refine ⟨hstepsi, ?_⟩
          intro g1 hg1
          rcases List.mem_cons.mp hg1 with h3 | h3
          · subst h3
            have := hnone hstepsi
            omega
          · exact h2.2 g1 h3
    · simp only [skinFoldStep]
      rw [hw]
      simp
    · intro i hi
      simp only [skinFoldStep] at hi ⊢
      by_cases hc : st.wm < pyroundInt (g.2 / wf * 255)
      · rw [if_pos hc] at hi
        simp only at hi
        cases hi
        simp
      · rw [if_neg hc] at hi
        simp only at hi
        have := hsi i hi
        simp
        omega
    · simp only [skinFoldStep]
      by_cases hc : st.wm < pyroundInt (g.2 / wf * 255)
      · rw [if_pos hc]
        omega
      · rw [if_neg hc]
        exact hwm
    · intro hs
      simp only [skinFoldStep] at hs ⊢
      by_cases hc : st.wm < pyroundInt (g.2 / wf * 255)
      · rw [if_pos hc] at hs
        cases hs
      · rw [if_neg hc] at hs ⊢
        exact hnone hs

theorem skinFold_replicate (wf : ℚ) (b : ℤ) (q : ℚ)
    (h0 : pyroundInt (q / wf * 255) = 0) :
    ∀ (k : ℕ) (skin : List (ℤ × ℤ)) (w wm : ℤ) (si : Option ℕ), 0 ≤ wm →
      (List.replicate k (b, q)).foldl (skinFoldStep wf) ⟨skin, w, wm, si⟩ =
        ⟨skin ++ List.replicate k (b, 1), w + k, wm, si⟩ := by
  intro k
  induction k with
  | zero =>
    intro skin w wm si _
    simp
  | succ n ih =>
    intro skin w wm si hwm
    rw [List.replicate_succ, List.foldl_cons]
    have hs0 : pyroundInt (((b, q) : ℤ × ℚ).2 / wf * 255) = 0 := h0
    have hstep : skinFoldStep wf ⟨skin, w, wm, si⟩ (b, q) =
        ⟨skin ++ [(b, 1)], w + 1, wm, si⟩ := by
      simp only [skinFoldStep, hs0]
      rw [if_neg (by omega : ¬(wm < (0 : ℤ))), if_pos (by decide : (0 : ℤ) < 1)]
    rw [hstep, ih _ _ _ _ hwm]
    congr 1
    · rw [List.append_assoc, List.singleton_append, ← List.replicate_succ]
    · push_cast
      ring

/-- C7 counterexample: the 255-sum and [1,255]-range guarantees fail on
degenerate influence sets.  With 511 equal raw weights, every rescaled
weight rounds to 0 (so the largest-index variable is never assigned and
the shortfall redistribution is skipped): every entry is clamped up to 1
and the emitted set sums to 511, not 255.  With one dominant weight and
255 tiny ones, the clamping pushes the total to 510 and the shortfall
drives the dominant entry down to 0, outside [1,255]. -/
theorem skin_counterexample :
    (buildSkin (List.replicate 511 ((0 : ℤ), (1 : ℚ))) =
        some (List.replicate 511 ((0 : ℤ), (1 : ℤ))) ∧
      ((List.replicate 511 ((0 : ℤ), (1 : ℤ))).map Prod.snd).sum = 511) ∧
    buildSkin (((0 : ℤ), (1000000 : ℚ)) :: List.replicate 255 ((0 : ℤ), 1)) =
      some (((0 : ℤ), (0 : ℤ)) :: List.replicate 255 ((0 : ℤ), (1 : ℤ))) := by
  refine ⟨⟨?_, ?_⟩, ?_⟩
  · have hwf : ((List.replicate 511 ((0 : ℤ), (1 : ℚ))).map Prod.snd).sum
        = 511 := by
      rw [List.map_replicate, List.sum_replicate, nsmul_eq_mul]
      norm_num
    have h0 : pyroundInt ((1 : ℚ) / 511 * 255) = 0 := by
      norm_num [pyroundInt]
    have hfold := skinFold_replicate 511 0 1 h0 511 [] 0 0 none le_rfl
    simp only [buildSkin, hwf]
    rw [if_pos (by norm_num), hfold]
    norm_num
  · rw [List.map_replicate, List.sum_replicate, nsmul_eq_mul]
    norm_num
  · have hwf : ((((0 : ℤ), (1000000 : ℚ)) ::
        List.replicate 255 ((0 : ℤ), (1 : ℚ))).map Prod.snd).sum = 1000255 := by
      rw [List.map_cons, List.sum_cons, List.map_replicate, List.sum_replicate,
        nsmul_eq_mul]
      norm_num
    have hsBig : pyroundInt ((((0 : ℤ), (1000000 : ℚ)) : ℤ × ℚ).2
        / 1000255 * 255) = 255 := by
      norm_num [pyroundInt]
    have h0 : pyroundInt ((1 : ℚ) / 1000255 * 255) = 0 := by
      norm_num [pyroundInt]
    have hstep : skinFoldStep 1000255 ⟨[], 0, 0, none⟩ ((0 : ℤ), (1000000 : ℚ)) =
        ⟨[(0, 255)], 255, 255, some 0⟩ := by
      simp only [skinFoldStep, hsBig]
      norm_num
    have hfold := skinFold_replicate 1000255 0 1 h0 255 [(0, 255)] 255 255
      (some 0) (by norm_num)
    simp only [buildSkin, hwf]
    rw [if_pos (by norm_num), List.foldl_cons, hstep, hfold]
    norm_num [addShortfall]

/-- C7 (amended): a zero raw weight sum leaves the vertex unskinned;
whenever some rescaled weight rounds to at least 1 (which pins down the
largest-weight entry the shortfall is added to), the emitted set has one
byte per influence and sums to exactly 255; and raw weights `[3, 1]`
yield the bytes `[191, 64]`, which sum to 255 with each in `[1, 255]`.
(Absent such an entry — or with enough influences — the 255-sum and the
[1,255] range can both fail, see the counterexample.) -/
theorem skin_normalization_amended :
    (∀ groups : List (ℤ × ℚ), (groups.map Prod.snd).sum = 0 →
      buildSkin groups = none) ∧
    (∀ groups : List (ℤ × ℚ), 0 < (groups.map Prod.snd).sum →
      (∃ g ∈ groups,
        1 ≤ pyroundInt (g.2 / (groups.map Prod.snd).sum * 255)) →
      ∃ sk, buildSkin groups = some sk ∧ sk.length = groups.length ∧
        (sk.map Prod.snd).sum = 255) ∧
    buildSkin [((0 : ℤ), (3 : ℚ)), (1, 1)] = some [(0, 191), (1, 64)] := by
  refine ⟨?_, ?_, ?_⟩
  · intro groups h
    simp only [buildSkin, h]
    norm_num
  · intro groups hpos hex
    have hinv := skinFold_inv ((groups.map Prod.snd).sum) groups
      ⟨[], 0, 0, none⟩ (by simp) (by intro i hi; cases hi) le_rfl
      (fun _ => rfl)
    obtain ⟨hw, hsi, hlen, hnone⟩ := hinv
    simp only [buildSkin]
    rw [if_pos hpos]
    rcases hsi0 : (groups.foldl (skinFoldStep ((groups.map Prod.snd).sum))
        ⟨[], 0, 0, none⟩).si with _ | i
    · obtain ⟨-, hall⟩ := hnone hsi0
      obtain ⟨g, hg, hge⟩ := hex
      exact absurd (hall g hg) (by omega)
    · by_cases hw255 : (groups.foldl (skinFoldStep ((groups.map Prod.snd).sum))
          ⟨[], 0, 0, none⟩).w = 255
      · rw [if_neg (fun hne => hne hw255)]
        refine ⟨_, rfl, by simpa using hlen, ?_⟩
        rw [← hw]
        exact hw255
      · rw [if_pos hw255]
        refine ⟨_, rfl, ?_, ?_⟩
        · rw [addShortfall_length]
          simpa using hlen
        · rw [addShortfall_sum _ _ _ (hsi i hsi0), ← hw]
          ring
  · have hsum : (([((0 : ℤ), (3 : ℚ)), (1, 1)]).map Prod.snd).sum = 4 := by
      norm_num
    have hA : skinFoldStep 4 ⟨[], 0, 0, none⟩ ((0 : ℤ), (3 : ℚ)) =
        ⟨[(0, 191)], 191, 191, some 0⟩ := by
      have h1 : pyroundInt ((((0 : ℤ), (3 : ℚ)) : ℤ × ℚ).2 / 4 * 255) = 191 := by
        norm_num [pyroundInt]
      simp only [skinFoldStep, h1]
      norm_num
    have hB : skinFoldStep 4 ⟨[(0, 191)], 191, 191, some 0⟩ ((1 : ℤ), (1 : ℚ)) =
        ⟨[(0, 191), (1, 64)], 255, 191, some 0⟩ := by
      have h1 : pyroundInt ((((1 : ℤ), (1 : ℚ)) : ℤ × ℚ).2 / 4 * 255) = 64 := by
        norm_num [pyroundInt]
      simp only [skinFoldStep, h1]
      norm_num
    simp only [buildSkin, hsum]
    rw [if_pos (by norm_num), List.foldl_cons, hA, List.foldl_cons, hB]
    norm_num

theorem skin_normalization_witness :
    buildSkin [] = none ∧
    ∃ sk, buildSkin [((0 : ℤ), (3 : ℚ)), (1, 1)] = some sk ∧
      sk.length = 2 ∧ (sk.map Prod.snd).sum = 255 :=
  ⟨skin_normalization_amended.1 [] rfl,
   by
    obtain ⟨sk, h1, h2, h3⟩ := skin_normalization_amended.2.1
      [((0 : ℤ), (3 : ℚ)), (1, 1)] (by norm_num)
      ⟨((0 : ℤ), (3 : ℚ)), by simp, by norm_num [pyroundInt]⟩
    exact ⟨sk, h1, by simpa using h2, h3⟩⟩

theorem lastRec_concat {α : Type} :
    ∀ (l : List α) (a d : α), lastRec (l ++ [a]) d = a := by
  intro l
  induction l with
  | nil =>
    intro a d
    rfl
  | cons b t ih =>
    intro a d
    rw [List.cons_append]
    exact ih a b

theorem stamp_ne_nil (mpf : ℚ) (f0 : ℤ) (pre : List (ℤ × List Delta))
    (h : pre ≠ []) : stamp mpf f0 pre ≠ [] := by
  cases pre
  · exact absurd rfl h
  · simp [stamp]

theorem stamp_concat (mpf : ℚ) (f0 f : ℤ) (l : List (ℤ × List Delta))
    (c : List Delta) :
    stamp mpf f0 (l ++ [(f, c)]) =
      stamp mpf f0 l ++ [(⌊((f - f0 : ℤ) : ℚ) * mpf⌋, c)] := by
  simp [stamp]

theorem recFold_suffix (digits : ℕ) (bones : List ABone)
    (smp : ℤ → String → Sample) :
    ∀ (fl : List ℤ) (pool : Pool Vert) (lp : LastPose)
      (pre : List (ℤ × List Delta)),
      ∃ suff, (fl.foldl (recVisit digits bones smp) (pool, lp, pre)).2.2 =
        pre ++ suff := by
  intro fl
  induction fl with
  | nil =>
    intro pool lp pre
    exact ⟨[], by simp⟩
  | cons f fl ih =>
    intro pool lp pre
    rw [List.foldl_cons]
    simp only [recVisit]
    by_cases hch : (bones.foldl (poseStep digits (smp f)) (pool, lp, [])).2.2 = []
    · rw [if_pos hch]
      exact ih _ _ pre
    · rw [if_neg hch]
      obtain ⟨suff, hs⟩ := ih
        (bones.foldl (poseStep digits (smp f)) (pool, lp, [])).1
        (bones.foldl (poseStep digits (smp f)) (pool, lp, [])).2.1
        (pre ++ [(f, (bones.foldl (poseStep digits (smp f)) (pool, lp, [])).2.2)])
      refine ⟨[(f, (bones.foldl (poseStep digits (smp f)) (pool, lp, [])).2.2)] ++ suff, ?_⟩
      rw [hs, List.append_assoc]

theorem animFold_stamped (digits : ℕ) (mpf : ℚ) (bones : List ABone)
    (smp : ℤ → String → Sample) :
    ∀ (fl : List ℤ) (pool : Pool Vert) (lp : LastPose)
      (pre : List (ℤ × List Delta)) (f0 : ℤ)
      (fr : List (ℤ × List Delta)) (lf : ℤ),
      pre ≠ [] → fr = stamp mpf f0 pre → lf = (lastRec pre (0, [])).1 →
      (fl.foldl (recVisit digits bones smp) (pool, lp, pre)).2.2 ≠ [] ∧
      fl.foldl (frameVisit digits mpf bones smp) ⟨pool, lp, fr, f0, lf⟩ =
        ⟨(fl.foldl (recVisit digits bones smp) (pool, lp, pre)).1,
         (fl.foldl (recVisit digits bones smp) (pool, lp, pre)).2.1,
         stamp mpf f0 ((fl.foldl (recVisit digits bones smp) (pool, lp, pre)).2.2),
         f0,
         (lastRec ((fl.foldl (recVisit digits bones smp) (pool, lp, pre)).2.2)
           (0, [])).1⟩ := by
  intro fl
  induction fl with
  | nil =>
    intro pool lp pre f0 fr lf hpre hfr hlf
    subst hfr
    subst hlf
    exact ⟨hpre, rfl⟩
  | cons f fl ih =>
    intro pool lp pre f0 fr lf hpre hfr hlf
    subst hfr
    subst hlf
    simp only [List.foldl_cons, recVisit, frameVisit]
    by_cases hch : (bones.foldl (poseStep digits (smp f)) (pool, lp, [])).2.2 = []
    · rw [if_pos hch, if_pos hch]
      exact ih _ _ pre f0 _ _ hpre rfl rfl
    · rw [if_neg hch, if_neg hch]
      rw [if_neg (stamp_ne_nil mpf f0 pre hpre)]
      refine ih _ _
        (pre ++ [(f, (bones.foldl (poseStep digits (smp f)) (pool, lp, [])).2.2)])
        f0 _ _ (by simp) ?_ ?_
      · rw [stamp_concat]
      · rw [lastRec_concat]

theorem animFold_initial (digits : ℕ) (mpf : ℚ) (bones : List ABone)
    (smp : ℤ → String → Sample) :
    ∀ (fl : List ℤ) (pool : Pool Vert) (lp : LastPose) (a20 lf0 : ℤ),
      fl.foldl (frameVisit digits mpf bones smp) ⟨pool, lp, [], a20, lf0⟩ =
        ⟨(fl.foldl (recVisit digits bones smp) (pool, lp, [])).1,
         (fl.foldl (recVisit digits bones smp) (pool, lp, [])).2.1,
         (assembleFrames mpf a20 lf0
           ((fl.foldl (recVisit digits bones smp) (pool, lp, [])).2.2)).1,
         (assembleFrames mpf a20 lf0
           ((fl.foldl (recVisit digits bones smp) (pool, lp, [])).2.2)).2.1,
         (assembleFrames mpf a20 lf0
           ((fl.foldl (recVisit digits bones smp) (pool, lp, [])).2.2)).2.2⟩ := by
  intro fl
  induction fl with
  | nil =>
    intro pool lp a20 lf0
    rfl
  | cons f fl ih =>
    intro pool lp a20 lf0
    simp only [List.foldl_cons, recVisit, frameVisit]
    by_cases hch : (bones.foldl (poseStep digits (smp f)) (pool, lp, [])).2.2 = []
    · rw [if_pos hch, if_pos hch]
      exact ih _ _ a20 lf0
    · rw [if_neg hch, if_neg hch]
      simp only [List.nil_append, if_true]
      set r := bones.foldl (poseStep digits (smp f)) (pool, lp, []) with hr
      obtain ⟨hne, heq⟩ := animFold_stamped digits mpf bones smp fl r.1 r.2.1
        [(f, r.2.2)] f [(⌊((f - f : ℤ) : ℚ) * mpf⌋, r.2.2)] f
        (by simp) (by simp [stamp]) rfl
      rw [heq]
      obtain ⟨suff, hsuf⟩ := recFold_suffix digits bones smp fl r.1 r.2.1 [(f, r.2.2)]
      rw [hsuf]
      simp only [List.singleton_append, assembleFrames, lastRec, List.nil_append]
      rfl

/-- C8: the per-action encoder appends a bone to a frame's delta list
only when its rounded, pooled position or orientation differs from the
last recorded pose (initialised to the bind pose, inside `poseStep` and
the `lastpose` initialisation shared with `recordedDeltaFrames`); a
frame with an empty delta list is omitted; the first recorded frame's
original sample index becomes the action's time origin, every recorded
frame is stamped `int((sampleIndex - origin) * 1000/fps)`, the duration
is `int((last - origin + 1) * 1000/fps)`, and an action with zero
recorded frames is dropped (`none`). -/
theorem anim_delta_claim (digits fps : ℕ) (bones : List ABone)
    (smp : ℤ → String → Sample) (st en : ℤ) (pool : Pool Vert) :
    processAction digits fps bones smp st en pool =
      ((recordedDeltaFrames digits bones smp st en pool).1,
       match (recordedDeltaFrames digits bones smp st en pool).2.2 with
       | [] => none
       | (f0, d0) :: rest =>
         some (⌊(((lastRec rest (f0, d0)).1 - f0 + 1 : ℤ) : ℚ) * (1000 / (fps : ℚ))⌋,
           stamp (1000 / (fps : ℚ)) f0 ((f0, d0) :: rest))) := by
  simp only [processAction, recordedDeltaFrames]
  rw [animFold_initial digits (1000 / (fps : ℚ)) bones smp (frameRange st en)
    pool (bones.map (fun b => (b.name, b.pos, b.ori))) st 0]
  cases hr : (List.foldl (recVisit digits bones smp)
      (pool, bones.map (fun b => (b.name, b.pos, b.ori)), [])
      (frameRange st en)).2.2 with
  | nil =>
    simp [assembleFrames]
  | cons hd tl =>
    obtain ⟨f0, d0⟩ := hd
    simp only [assembleFrames]
    rw [if_neg (stamp_ne_nil _ _ _ (List.cons_ne_nil _ _))]
